import Mathlib

/-!
# Verification of the traccc CKF track-finding search engine

Shallow embedding of the device-side combinatorial-Kalman-filter track
finding code of traccc:

* `find_tracks` (src/device/common/include/traccc/finding/device/impl/
  find_tracks.ipp): the load-balanced step expander, the per-seed branch
  budget counters, and the hole inserter;
* `build_tracks` (src/device/common/include/traccc/finding/device/impl/
  build_tracks.ipp): the track assembler that back-traces tips through
  the link table.

Machine `unsigned int` values are modelled as `Nat` (no arithmetic in the
modelled code paths overflows); the floating-point `traccc::scalar` is
modelled as `ℚ`, with the comparison structure of the code preserved
exactly.  The external Kalman gain-matrix updater is an opaque
collaborator and is modelled as an `Option ℚ` outcome (`some chi2` on
`SUCCESS`, `none` on failure), as the code only consumes its status and
the filtered chi-square.
-/

namespace Traccc

/-- Model of `traccc::finding_config`: the five options the finding kernels
read. `max_track_candidates_per_track` bounds the number of steps,
`min_track_candidates_per_track` is the minimum chain length of a tip,
`max_num_skipping_per_cand` is the hole budget, `max_num_branches_per_seed`
the per-seed branch budget, and `chi2_max` the acceptance threshold. -/
structure FindingConfig where
  max_track_candidates_per_track : Nat
  min_track_candidates_per_track : Nat
  max_num_skipping_per_cand : Nat
  max_num_branches_per_seed : Nat
  chi2_max : ℚ
deriving DecidableEq

/-- Value of `std::numeric_limits<unsigned int>::max()`, the hole sentinel written
into `meas_idx` by the hole inserter (find_tracks.ipp line 343). -/
def holeMeasIdx : Nat := 2 ^ 32 - 1

/-- Value of `std::numeric_limits<traccc::scalar>::max()` for a single-precision
`scalar`, i.e. `FLT_MAX = (2 - 2^-23) * 2^127`, the chi-square sentinel
stored on hole links (find_tracks.ipp line 346). -/
def scalarMax : ℚ := 2 ^ 128 - 2 ^ 104

/-- Model of `traccc::candidate_link` (one record of the link table), with
the fields written by `find_tracks` (find_tracks.ipp lines 262-267 and
340-346). -/
structure CandidateLink where
  step : Nat
  previous_candidate_idx : Nat
  meas_idx : Nat
  seed_idx : Nat
  n_skipped : Nat
  chi2 : ℚ
deriving DecidableEq

/-- Default link used for out-of-range `getD` reads; well-formedness
hypotheses make sure it is never actually read. -/
def dlink : CandidateLink := ⟨0, 0, 0, 0, 0, 0⟩

/-!
## Atomic branch-budget trace model

`n_tracks_per_seed` is a global atomic counter array.  Two sites perform
`fetch_add(1)` on it: the measurement-acceptance site (find_tracks.ipp
line 248, post-checked by `s_pos < cfg.max_num_branches_per_seed` on line
249) and the hole-insertion site (line 321, post-checked on line 323).  A
concurrent execution is abstracted as a serialization of these atomic
read-modify-write events: each event atomically reads the counter
(obtaining `s_pos`), increments it, and appends its record to the global
link table (or tip vector) exactly when `s_pos` was below the cap.
-/

/-- What the guarded site appends when its post-increment check passes:
a measurement link (line 254), a hole link (line 338), or a tip of a
terminated branch (line 334). -/
inductive AttemptKind where
  | measLink
  | holeLink
  | holeTip
deriving DecidableEq

/-- One atomic `fetch_add` event on `n_tracks_per_seed`, identified by the
seed whose counter it increments and by what it appends on success. -/
structure Attempt where
  seed : Nat
  kind : AttemptKind
deriving DecidableEq

/-- Global state touched by the budget-guarded sites: the per-seed atomic
counters and the sequence of appended records (seed and kind of each). -/
structure BudgetState where
  ctr : Nat → Nat
  recs : List (Nat × AttemptKind)

/-- Initial state of a search: counters all zero (`n_tracks_per_seed` is
zeroed once at the start of the search), no links. -/
def initBudget : BudgetState := ⟨fun _ => 0, []⟩

/-- Serialized semantics of one guarded `fetch_add` site:
`s_pos = fetch_add(1)` followed by the `s_pos < max_num_branches_per_seed`
check (find_tracks.ipp lines 248-249 and 321-323). -/
def applyAttempt (maxBranches : Nat) (s : BudgetState) (a : Attempt) : BudgetState :=
  let s_pos := s.ctr a.seed
  { ctr := fun sd => if sd = a.seed then s_pos + 1 else s.ctr sd
    recs := if s_pos < maxBranches then s.recs ++ [(a.seed, a.kind)] else s.recs }

/-- Run a serialized trace of guarded `fetch_add` events. -/
def runAttempts (maxBranches : Nat) (s : BudgetState) (as : List Attempt) : BudgetState :=
  as.foldl (applyAttempt maxBranches) s

/-- Number of appended records carrying a given seed (links of any kind
and tips). -/
def recCount (sd : Nat) (s : BudgetState) : Nat :=
  s.recs.countP (fun p => decide (p.1 = sd))

/-- Number of measurement links (links whose `meas_idx` is not the hole
sentinel) carrying a given seed. -/
def measLinkCount (sd : Nat) (s : BudgetState) : Nat :=
  s.recs.countP (fun p => decide (p.1 = sd ∧ p.2 = AttemptKind.measLink))

lemma measLinkCount_le_recCount (sd : Nat) (s : BudgetState) :
    measLinkCount sd s ≤ recCount sd s := by
  apply List.countP_mono_left
  intro p _ hp
  simp only [decide_eq_true_eq] at hp ⊢
  exact hp.1

/-- The budget invariant: per seed, the number of appended records is
bounded both by the current counter value and by the cap. -/
def BudgetInv (maxBranches : Nat) (s : BudgetState) : Prop :=
  ∀ sd, recCount sd s ≤ s.ctr sd ∧ recCount sd s ≤ maxBranches

lemma ctr_apply (maxBranches : Nat) (s : BudgetState) (a : Attempt) (sd : Nat) :
    (applyAttempt maxBranches s a).ctr sd =
      if sd = a.seed then s.ctr a.seed + 1 else s.ctr sd := rfl

lemma recCount_apply (maxBranches : Nat) (s : BudgetState) (a : Attempt) (sd : Nat) :
    recCount sd (applyAttempt maxBranches s a) =
      recCount sd s + (if s.ctr a.seed < maxBranches ∧ a.seed = sd then 1 else 0) := by
  unfold recCount applyAttempt
  by_cases hsd : a.seed = sd
  · subst hsd
    by_cases hlt : s.ctr a.seed < maxBranches <;>
      simp [hlt, List.countP_append, List.countP_cons]
  · by_cases hlt : s.ctr a.seed < maxBranches <;>
      simp [hlt, hsd, List.countP_append, List.countP_cons]

lemma measLinkCount_apply (maxBranches : Nat) (s : BudgetState) (a : Attempt) (sd : Nat) :
    measLinkCount sd (applyAttempt maxBranches s a) =
      measLinkCount sd s +
        (if s.ctr a.seed < maxBranches ∧ a.seed = sd ∧ a.kind = AttemptKind.measLink
          then 1 else 0) := by
  unfold measLinkCount applyAttempt
  by_cases hsd : a.seed = sd
  · subst hsd
    by_cases hk : a.kind = AttemptKind.measLink
    · by_cases hlt : s.ctr a.seed < maxBranches <;>
        simp [hlt, hk, List.countP_append, List.countP_cons]
    · by_cases hlt : s.ctr a.seed < maxBranches <;>
        simp [hlt, hk, List.countP_append, List.countP_cons]
  · by_cases hlt : s.ctr a.seed < maxBranches <;>
      simp [hlt, hsd, List.countP_append, List.countP_cons]

lemma budgetInv_apply (maxBranches : Nat) (s : BudgetState) (a : Attempt)
    (h : BudgetInv maxBranches s) : BudgetInv maxBranches (applyAttempt maxBranches s a) := by
  intro sd
  obtain ⟨h1, h2⟩ := h sd
  obtain ⟨h1a, h2a⟩ := h a.seed
  rw [recCount_apply, ctr_apply]
  by_cases hsd : a.seed = sd
  · subst hsd
    simp only [if_pos rfl]
    by_cases hlt : s.ctr a.seed < maxBranches <;> simp [hlt] <;> omega
  · have hsd' : ¬ sd = a.seed := fun hh => hsd hh.symm
    simp only [if_neg hsd']
    have : ¬ (s.ctr a.seed < maxBranches ∧ a.seed = sd) := fun hh => hsd hh.2
    simp only [if_neg this]
    exact ⟨by omega, h2⟩

lemma budgetInv_run (maxBranches : Nat) (as : List Attempt) (s : BudgetState)
    (h : BudgetInv maxBranches s) : BudgetInv maxBranches (runAttempts maxBranches s as) := by
  induction as generalizing s with
  | nil => exact h
  | cons a as ih => exact ih _ (budgetInv_apply maxBranches s a h)

lemma budgetInv_init (maxBranches : Nat) : BudgetInv maxBranches initBudget := by
  intro sd
  simp [initBudget, recCount]

/-- Counter monotonicity: each event only ever adds 1 to one counter. -/
lemma ctr_mono (maxBranches : Nat) (as : List Attempt) (s : BudgetState) (sd : Nat) :
    s.ctr sd ≤ (runAttempts maxBranches s as).ctr sd := by
  induction as generalizing s with
  | nil => exact Nat.le_refl _
  | cons a as ih =>
    refine Nat.le_trans ?_ (ih (applyAttempt maxBranches s a))
    unfold applyAttempt
    by_cases hsd : sd = a.seed
    · subst hsd; simp
    · simp [hsd]

/-- Running `n` measurement-acceptance attempts for one seed appends
`min n (cap - current counter)` links. -/
lemma measLink_saturation (maxBranches : Nat) (sd : Nat) (n : Nat) (s : BudgetState) :
    measLinkCount sd
        (runAttempts maxBranches s (List.replicate n ⟨sd, AttemptKind.measLink⟩)) =
      measLinkCount sd s + min n (maxBranches - s.ctr sd) := by
  induction n generalizing s with
  | zero => simp only [List.replicate_zero, runAttempts, List.foldl_nil]; omega
  | succ n ih =>
    have hstep :
        runAttempts maxBranches s (List.replicate (n + 1) ⟨sd, AttemptKind.measLink⟩) =
          runAttempts maxBranches (applyAttempt maxBranches s ⟨sd, AttemptKind.measLink⟩)
            (List.replicate n ⟨sd, AttemptKind.measLink⟩) := by
      simp [runAttempts, List.replicate_succ]
    rw [hstep, ih, measLinkCount_apply]
    have hctr : (applyAttempt maxBranches s ⟨sd, AttemptKind.measLink⟩).ctr sd =
        s.ctr sd + 1 := by
      rw [ctr_apply]; simp
    rw [hctr]
    by_cases hlt : s.ctr sd < maxBranches <;> simp [hlt] <;> omega

/-- C2: For every seed and at every point of the search (i.e. after any
serialized trace of guarded `fetch_add` events starting from the zeroed
counters), the number of links carrying that `seed_id` whose
`measurement_id` is not the hole sentinel never exceeds
`max_num_branches_per_seed`; and a race of `n` acceptance-ready attempts
on one seed is truncated by the post-increment check to exactly
`min n cap` accepted links — the configured cap once `n` reaches it. -/
theorem C2_branch_cap_invariant (maxBranches : Nat) (as : List Attempt) (sd : Nat) :
    measLinkCount sd (runAttempts maxBranches initBudget as) ≤ maxBranches ∧
    (∀ n sd0, measLinkCount sd0
        (runAttempts maxBranches initBudget (List.replicate n ⟨sd0, AttemptKind.measLink⟩)) =
      min n maxBranches) := by
  constructor
  · exact Nat.le_trans (measLinkCount_le_recCount sd _)
      ((budgetInv_run maxBranches as initBudget (budgetInv_init maxBranches)) sd).2
  · intro n sd0
    have h := measLink_saturation maxBranches sd0 n initBudget
    simpa [initBudget, measLinkCount] using h

/-- C9: The per-seed branch counter is increment-only — no event ever
decreases any counter along any trace — and an attempt rejected by the
post-increment check still consumes its increment, so the stored counter
can strictly exceed the cap while the number of links created for the
seed stays within it: with cap 1 and two racing acceptances the counter
ends at 2 but only one link exists. -/
theorem C9_counter_increment_only (maxBranches : Nat) :
    (∀ (s : BudgetState) (as : List Attempt) (sd : Nat),
        s.ctr sd ≤ (runAttempts maxBranches s as).ctr sd) ∧
    ((runAttempts 1 initBudget
        [⟨0, AttemptKind.measLink⟩, ⟨0, AttemptKind.measLink⟩]).ctr 0 = 2 ∧
      1 < (runAttempts 1 initBudget
        [⟨0, AttemptKind.measLink⟩, ⟨0, AttemptKind.measLink⟩]).ctr 0 ∧
      measLinkCount 0 (runAttempts 1 initBudget
        [⟨0, AttemptKind.measLink⟩, ⟨0, AttemptKind.measLink⟩]) = 1) := by
  refine ⟨fun s as sd => ctr_mono maxBranches as s sd, rfl, by norm_num [runAttempts, applyAttempt, initBudget], rfl⟩

/-!
## The dequeue/process phase of the step expander

`find_tracks` step 2 (find_tracks.ipp lines 189-282): one thread picks one
(measurement index, owning slot) pair out of the shared buffer and
processes it.  The model below is the body of that `if` block for one
pair, executed atomically; the values the two atomic counter accesses
observe — the `load()` on line 230 and the `fetch_add(1)` on line 248 —
are passed in as `loadVal` and `addPre` (in a race `addPre` may differ
from `loadVal`).  The external gain-matrix updater (line 233) is the
opaque argument `kalman : Option ℚ`.
-/

/-- Result of processing one dequeued (measurement, owning-slot) pair. -/
structure PairOutcome where
  /-- Value of `shared_num_candidates[owner_local_thread_id]` after the pair. -/
  shared_num_candidates : Nat
  /-- whether the `fetch_add` on `n_tracks_per_seed` (line 248) ran. -/
  counter_incremented : Bool
  /-- the link appended to the link table, if any (lines 254-267). -/
  newLink : Option CandidateLink
  /-- the index pushed to `tips`, if any (line 279). -/
  tipPushed : Option Nat
deriving DecidableEq

/-- One dequeued pair of `find_tracks` step 2 (lines 193-281).  `prevLink`
is `links.at(prev_link_idx)` (only read when `step > 0`), `kalman` the
gain-matrix-updater outcome for this (state, measurement), `loadVal` the
value observed by `num_tracks_per_seed.load()`, `addPre` the value the
`fetch_add(1)` would return, `sharedNum` the owner's
`shared_num_candidates` value, and `l_pos` the index handed out by
`links.bulk_append_implicit(1)`. -/
def processPair (cfg : FindingConfig) (step prev_link_idx : Nat) (prevLink : CandidateLink)
    (seed_idx meas_idx : Nat) (kalman : Option ℚ) (loadVal addPre sharedNum l_pos : Nat) :
    PairOutcome :=
  let last_step := step = cfg.max_track_candidates_per_track - 1
  if loadVal < cfg.max_num_branches_per_seed then
    match kalman with
    | none => ⟨sharedNum, false, none, none⟩
    | some chi2 =>
      if chi2 < cfg.chi2_max then
        if addPre < cfg.max_num_branches_per_seed then
          let n_skipped := if step = 0 then 0 else prevLink.n_skipped
          let link : CandidateLink :=
            ⟨step, prev_link_idx, meas_idx, seed_idx, n_skipped, chi2⟩
          let n_cands := step + 1 - n_skipped
          ⟨sharedNum + 1, true, some link,
            if last_step ∧ cfg.min_track_candidates_per_track ≤ n_cands
              then some l_pos else none⟩
        else ⟨sharedNum + 1, true, none, none⟩
      else ⟨sharedNum, false, none, none⟩
  else ⟨sharedNum + 1, false, none, none⟩

/-- The guard of the hole-insertion phase for one slot (find_tracks.ipp
lines 310-313): the slot must be live and its `shared_num_candidates`
entry must still be zero. -/
def holePhaseRuns (live : Bool) (shared_num : Nat) : Bool :=
  live && shared_num == 0

/-- C4: For a pair whose seed is unsaturated at the `load()` (line 230), a
link is appended iff the gain-matrix updater returned `SUCCESS` with a
chi-square strictly below `chi2_max` and the post-increment value stayed
within the cap; and an updater failure produces exactly the same outcome
as a chi-square exceedance — no link, no error, no retry, the same
counter and buffer state. -/
theorem C4_accept_iff_update_ok (cfg : FindingConfig) (step prev_link_idx : Nat)
    (prevLink : CandidateLink) (seed_idx meas_idx : Nat) (kalman : Option ℚ)
    (loadVal addPre sharedNum l_pos : Nat)
    (h : loadVal < cfg.max_num_branches_per_seed) :
    ((processPair cfg step prev_link_idx prevLink seed_idx meas_idx kalman loadVal addPre
        sharedNum l_pos).newLink.isSome ↔
      ∃ c, kalman = some c ∧ c < cfg.chi2_max ∧ addPre < cfg.max_num_branches_per_seed) ∧
    (∀ c, cfg.chi2_max ≤ c →
      processPair cfg step prev_link_idx prevLink seed_idx meas_idx none loadVal addPre
          sharedNum l_pos =
        processPair cfg step prev_link_idx prevLink seed_idx meas_idx (some c) loadVal addPre
          sharedNum l_pos) := by
  constructor
  · unfold processPair
    simp only [if_pos h]
    cases kalman with
    | none => simp
    | some c =>
      by_cases hc : c < cfg.chi2_max
      · by_cases ha : addPre < cfg.max_num_branches_per_seed <;>
          simp [hc, ha]
      · simp [hc]
  · intro c hc
    unfold processPair
    have hc' : ¬ c < cfg.chi2_max := not_lt.mpr hc
    simp [if_pos h, hc']

/-- Witness for C4 at a concrete input: cap 2, `loadVal = 0`, a successful
update with chi-square 1 below the threshold 10, post-increment value 0. -/
theorem C4_accept_iff_update_ok_witness :
    (0 : Nat) < 2 ∧
    (((processPair ⟨3, 1, 1, 2, 10⟩ 1 0 dlink 0 0 (some 1) 0 0 0 0).newLink.isSome ↔
      ∃ c, (some (1 : ℚ)) = some c ∧ c < (10 : ℚ) ∧ (0 : Nat) < 2) ∧
    (∀ c, (10 : ℚ) ≤ c →
      processPair ⟨3, 1, 1, 2, 10⟩ 1 0 dlink 0 0 none 0 0 0 0 =
        processPair ⟨3, 1, 1, 2, 10⟩ 1 0 dlink 0 0 (some c) 0 0 0 0)) :=
  ⟨by norm_num,
    C4_accept_iff_update_ok ⟨3, 1, 1, 2, 10⟩ 1 0 dlink 0 0 (some 1) 0 0 0 0 (by norm_num)⟩

/-- C1 (amended): For a dequeued pair whose seed branch counter is already
saturated at the `load()`, the measurement update is not attempted (the
outcome does not depend on the updater at all), the seed counter is not
touched, no link is appended — but the owning slot's
`shared_num_candidates` entry is incremented, so the slot is counted as
having produced a candidate and does *not* fall through to hole insertion
at the end of the step (find_tracks.ipp lines 239-242: "The seed is
already exhausted, avoid adding hole"). -/
theorem C1_saturated_skips_update_and_hole (cfg : FindingConfig)
    (step prev_link_idx : Nat) (prevLink : CandidateLink) (seed_idx meas_idx : Nat)
    (kalman : Option ℚ) (loadVal addPre sharedNum l_pos : Nat) (live : Bool)
    (h : cfg.max_num_branches_per_seed ≤ loadVal) :
    (∀ k1 k2 : Option ℚ,
      processPair cfg step prev_link_idx prevLink seed_idx meas_idx k1 loadVal addPre
          sharedNum l_pos =
        processPair cfg step prev_link_idx prevLink seed_idx meas_idx k2 loadVal addPre
          sharedNum l_pos) ∧
    (processPair cfg step prev_link_idx prevLink seed_idx meas_idx kalman loadVal addPre
        sharedNum l_pos =
      ⟨sharedNum + 1, false, none, none⟩) ∧
    holePhaseRuns live (sharedNum + 1) = false := by
  have h' : ¬ loadVal < cfg.max_num_branches_per_seed := not_lt.mpr h
  refine ⟨fun k1 k2 => ?_, ?_, ?_⟩
  · unfold processPair
    simp [h']
  · unfold processPair
    simp [h']
  · unfold holePhaseRuns
    simp

/-- Witness for C1 (amended) at a concrete input: cap 1 with the counter
already at 1, a live slot, and an updater outcome that would even have
passed the chi-square cut. -/
theorem C1_saturated_skips_update_and_hole_witness :
    (1 : Nat) ≤ 1 ∧
    ((∀ k1 k2 : Option ℚ,
      processPair ⟨3, 1, 1, 1, 10⟩ 1 0 dlink 0 0 k1 1 1 0 0 =
        processPair ⟨3, 1, 1, 1, 10⟩ 1 0 dlink 0 0 k2 1 1 0 0) ∧
    (processPair ⟨3, 1, 1, 1, 10⟩ 1 0 dlink 0 0 (some 1) 1 1 0 0 =
      ⟨0 + 1, false, none, none⟩) ∧
    holePhaseRuns true (0 + 1) = false) :=
  ⟨le_refl 1,
    C1_saturated_skips_update_and_hole ⟨3, 1, 1, 1, 10⟩ 1 0 dlink 0 0 (some 1) 1 1 0 0 true
      (le_refl 1)⟩

/-- C1 counterexample: at a concrete saturated input (cap 1, counter
already 1, slot's round counter 0, an update that would pass the
chi-square cut), the slot's round counter ends at 1 — not 0 — and the
hole-insertion guard is therefore false: the slot does not fall through
to hole insertion, contradicting the claim that it is marked as having
produced zero accepted children and falls through. -/
theorem C1_counterexample :
    (processPair ⟨3, 1, 1, 1, 10⟩ 1 0 dlink 0 0 (some 1) 1 1 0 0).shared_num_candidates = 1 ∧
    (processPair ⟨3, 1, 1, 1, 10⟩ 1 0 dlink 0 0 (some 1) 1 1 0 0).newLink = none ∧
    holePhaseRuns true
      (processPair ⟨3, 1, 1, 1, 10⟩ 1 0 dlink 0 0 (some 1) 1 1 0 0).shared_num_candidates =
      false := by
  refine ⟨rfl, rfl, rfl⟩

/-!
## The enqueue phase of the load-balanced loop

`find_tracks` step 2, enqueue part (find_tracks.ipp lines 158-185): one
thread pushes its remaining measurements into the shared buffer while
there is room, re-reading its seed's branch counter each iteration; on
observing saturation it sets its cursor to the end of its range and
breaks.  `obs c` is the counter value the thread reads at the iteration
whose cursor is `c`, and `room c` whether
`shared_candidates_size < blockDim` held at that iteration.
-/

/-- The per-thread enqueue loop of one wave.  Returns the final cursor
(`curr_meas`) and the accumulated list of enqueued measurement indices
(the first components of the pairs written to `shared_candidates`);
`fuel ≥ num - curr` suffices for the loop to terminate on its own
conditions. -/
def enqueueLoop (maxBranches num init : Nat) (obs : Nat → Nat) (room : Nat → Bool) :
    Nat → Nat → List Nat → Nat × List Nat
  | 0, curr, acc => (curr, acc)
  | fuel + 1, curr, acc =>
    if curr < num ∧ room curr = true then
      if maxBranches ≤ obs curr then (num, acc)
      else enqueueLoop maxBranches num init obs room fuel (curr + 1) (acc ++ [init + curr])
    else (curr, acc)

/-- C10: If the seed's branch counter is at or above the cap from some
cursor position `c0` on (the counter is increment-only, so once a thread
can observe saturation it keeps observing it), then (a) no measurement at
cursor `c0` or beyond is ever appended to the shared buffer, in this wave
or any later one, regardless of buffer room or remaining fuel; (b) the
cursor never moves backwards; and (c) a wave that actually enters the
loop body at such a cursor ends with the cursor set to the end of the
range, so the slot enqueues nothing for the rest of the step. -/
theorem C10_saturation_halts_enqueue (maxBranches num init : Nat)
    (obs : Nat → Nat) (room : Nat → Bool) (c0 : Nat)
    (hsat : ∀ c, c0 ≤ c → maxBranches ≤ obs c) :
    (∀ fuel curr acc, c0 ≤ curr →
      (enqueueLoop maxBranches num init obs room fuel curr acc).2 = acc) ∧
    (∀ fuel curr acc, curr ≤ (enqueueLoop maxBranches num init obs room fuel curr acc).1) ∧
    (∀ fuel curr acc, c0 ≤ curr → curr < num → room curr = true →
      (enqueueLoop maxBranches num init obs room (fuel + 1) curr acc).1 = num) := by
  refine ⟨?_, ?_, ?_⟩
  · intro fuel curr acc hc
    cases fuel with
    | zero => rfl
    | succ fuel =>
      unfold enqueueLoop
      by_cases hcond : curr < num ∧ room curr = true
      · simp only [if_pos hcond, if_pos (hsat curr hc)]
      · simp only [if_neg hcond]
  · intro fuel
    induction fuel with
    | zero => intro curr acc; exact Nat.le_refl _
    | succ fuel ih =>
      intro curr acc
      unfold enqueueLoop
      by_cases hcond : curr < num ∧ room curr = true
      · simp only [if_pos hcond]
        by_cases hobs : maxBranches ≤ obs curr
        · simp only [if_pos hobs]
          exact Nat.le_of_lt hcond.1
        · simp only [if_neg hobs]
          exact Nat.le_trans (Nat.le_succ curr) (ih (curr + 1) (acc ++ [init + curr]))
      · simp only [if_neg hcond]
        exact Nat.le_refl curr
  · intro fuel curr acc hc hlt hroom
    unfold enqueueLoop
    simp only [if_pos (And.intro hlt hroom), if_pos (hsat curr hc)]

/-- Witness for C10 at a concrete input: cap 2 with the counter observed
at 5 everywhere, a range of 4 measurements, room available, cursor 1. -/
theorem C10_saturation_halts_enqueue_witness :
    (∀ c, 0 ≤ c → (2 : Nat) ≤ (fun _ => 5) c) ∧
    ((∀ fuel curr acc, 0 ≤ curr →
      (enqueueLoop 2 4 0 (fun _ => 5) (fun _ => true) fuel curr acc).2 = acc) ∧
    (∀ fuel curr acc,
      curr ≤ (enqueueLoop 2 4 0 (fun _ => 5) (fun _ => true) fuel curr acc).1) ∧
    (∀ fuel curr acc, 0 ≤ curr → curr < 4 → (fun (_ : Nat) => true) curr = true →
      (enqueueLoop 2 4 0 (fun _ => 5) (fun _ => true) (fuel + 1) curr acc).1 = 4)) :=
  ⟨fun c _ => by norm_num,
    C10_saturation_halts_enqueue 2 4 0 (fun _ => 5) (fun _ => true) 0
      (fun c _ => by norm_num)⟩

/-!
## The hole inserter

`find_tracks` part three (find_tracks.ipp lines 306-353): a live slot
whose `shared_num_candidates` entry is still zero reserves a branch slot
with `fetch_add` and, depending on the hole budget and the step, either
terminates the branch (pushing a tip at the slot's *current* link) or
appends a hole link.
-/

/-- Result of the hole-insertion phase for one slot. -/
structure HoleOutcome where
  /-- the link table after the phase. -/
  links : List CandidateLink
  /-- the tip vector after the phase. -/
  tips : List Nat
  /-- Value of `n_tracks_per_seed[seed_idx]` after the `fetch_add`. -/
  ctrAfter : Nat
  /-- status of `assert(payload.step > 0)` (line 333): `false` exactly
  when the tip-push site was reached with `step = 0`. -/
  assertOk : Bool
deriving DecidableEq

/-- The hole-insertion phase for one slot, given that its guard (lines
310-313) passed.  `prevLink` is `links.at(prev_link_idx)` (read only when
`step > 0`), `s_pos` the value returned by the `fetch_add` on line 321. -/
def holeInsert (cfg : FindingConfig) (step prev_link_idx : Nat) (prevLink : CandidateLink)
    (seed_idx s_pos : Nat) (links : List CandidateLink) (tips : List Nat) : HoleOutcome :=
  let last_step := step = cfg.max_track_candidates_per_track - 1
  if s_pos < cfg.max_num_branches_per_seed then
    let n_skipped := if step = 0 then 0 else prevLink.n_skipped
    if cfg.max_num_skipping_per_cand ≤ n_skipped ∨ last_step then
      let n_cands := step - n_skipped
      if cfg.min_track_candidates_per_track ≤ n_cands then
        ⟨links, tips ++ [prev_link_idx], s_pos + 1, decide (0 < step)⟩
      else ⟨links, tips, s_pos + 1, true⟩
    else
      ⟨links ++ [⟨step, prev_link_idx, holeMeasIdx, seed_idx, n_skipped + 1, scalarMax⟩],
        tips, s_pos + 1, true⟩
  else ⟨links, tips, s_pos + 1, true⟩

/-- C6: evaluation of the hole inserter at the failing input.  With
configuration `max_track_candidates_per_track = 1` (a single step, so
step 0 is the last step) and `min_track_candidates_per_track = 0`, a live
slot with no accepted children reaches the tip-recording site at step 0:
a tip is pushed (at the slot's current link slot — nothing is appended),
and the internal assertion `step > 0` is violated. -/
theorem C6_step0_assert_violated :
    (holeInsert ⟨1, 0, 1, 1, 10⟩ 0 0 dlink 0 0 [] []).tips = [0] ∧
    (holeInsert ⟨1, 0, 1, 1, 10⟩ 0 0 dlink 0 0 [] []).links = [] ∧
    (holeInsert ⟨1, 0, 1, 1, 10⟩ 0 0 dlink 0 0 [] []).assertOk = false := by
  refine ⟨rfl, rfl, rfl⟩

/-!
## The measurement-range lookup (step 1 of the step expander)

`find_tracks` step 1 (find_tracks.ipp lines 83-126): a binary search for
the slot's surface barcode over the sorted barcode list, combined with
the precomputed cumulative upper-bound array, yields the measurement
range of the slot.
-/

/-- Index of the first element of `barcodes` that is `≥ bcd`, or
`barcodes.length` if there is none; this is exactly
`thrust::lower_bound` on a sorted sequence (line 102). -/
def lowerBoundIdx (barcodes : List Nat) (bcd : Nat) : Nat :=
  barcodes.findIdx (fun b => decide (bcd ≤ b))

/-- Step 1 of `find_tracks` (lines 91-126) for one live slot: returns
`(init_meas, num_meas)`. -/
def findMeasRange (barcodes upper_bounds : List Nat) (bcd : Nat) : Nat × Nat :=
  let i := lowerBoundIdx barcodes bcd
  if i = barcodes.length then (0, 0)
  else
    let init := if i = 0 then 0 else upper_bounds.getD (i - 1) 0
    (init, upper_bounds.getD i 0 - init)

/-!
## The single-seed step-0 scenario (spec §8, scenario 2)

One seed (slot 0), step 0, no measurement compatible with the seed's
surface: the measurement index is empty, so step 1 yields an empty range,
the load-balanced loop enqueues and processes nothing, the slot's
`shared_num_candidates` entry stays zero, and the hole-insertion phase
runs with a fresh counter.
-/

/-- Sequentially process a list of dequeued measurement indices belonging
to one owner slot, threading the owner's `shared_num_candidates` value. -/
def slotSharedNum (cfg : FindingConfig) (step prev_link_idx : Nat)
    (prevLink : CandidateLink) (seed_idx : Nat) (kalman : Nat → Option ℚ)
    (loadVals addPres l_poss : Nat → Nat) : List Nat → Nat → Nat
  | [], sharedNum => sharedNum
  | m :: ms, sharedNum =>
    slotSharedNum cfg step prev_link_idx prevLink seed_idx kalman loadVals addPres l_poss ms
      (processPair cfg step prev_link_idx prevLink seed_idx m (kalman m) (loadVals m)
        (addPres m) sharedNum (l_poss m)).shared_num_candidates

/-- Result of the full per-slot flow of `find_tracks` at step 0 for a
single seed with no compatible measurements. -/
structure Step0Run where
  num_meas : Nat
  enqueued : List Nat
  shared_num : Nat
  holeRan : Bool
  result : HoleOutcome
deriving DecidableEq

/-- The full per-slot flow of `find_tracks` at step 0 for one seed (slot
0) whose surface has no measurements at all (empty measurement index):
step 1 computes the range, step 2 enqueues and processes it (nothing to
do), part three inserts the hole.  The link table and tip vector start
empty, as step 0 is the first step of the search. -/
def runSingleSeedStep0NoMeas (cfg : FindingConfig) (bcd : Nat) : Step0Run :=
  let range := findMeasRange [] [] bcd
  let enq := enqueueLoop cfg.max_num_branches_per_seed range.2 range.1
    (fun _ => 0) (fun _ => true) range.2 0 []
  let sharedNum := slotSharedNum cfg 0 0 dlink 0 (fun _ => none)
    (fun _ => 0) (fun _ => 0) (fun _ => 0) enq.2 0
  let holeRan := holePhaseRuns true sharedNum
  { num_meas := range.2
    enqueued := enq.2
    shared_num := sharedNum
    holeRan := holeRan
    result :=
      if holeRan then holeInsert cfg 0 0 dlink 0 0 [] [] else ⟨[], [], 0, true⟩ }

/-- C5 counterexample: with `max_holes = 1`, `max_steps = 1`,
`min_length = 0` and a single seed with no compatible measurement at
step 0, the run does record exactly one tip at step 0 — but the link
table is empty: the tip index 0 refers to no link, so it does not point
at a "seed root" link, no hole link with hole count 1 exists, and the
internal `step > 0` assertion at the tip-push site is violated, so the
claimed outcome (a tip pointing at the seed root with hole count 1 that
assembles to zero measurements) is false on the code. -/
theorem C5_counterexample :
    (runSingleSeedStep0NoMeas ⟨1, 0, 1, 2, 10⟩ 7).result.tips = [0] ∧
    (runSingleSeedStep0NoMeas ⟨1, 0, 1, 2, 10⟩ 7).result.links = [] ∧
    ((runSingleSeedStep0NoMeas ⟨1, 0, 1, 2, 10⟩ 7).result.links.length = 0 ∧
      (runSingleSeedStep0NoMeas ⟨1, 0, 1, 2, 10⟩ 7).result.assertOk = false) := by
  refine ⟨rfl, rfl, rfl, rfl⟩

/-- C5 (amended): in the same scenario, the slot enqueues nothing, its
round counter stays zero, the hole phase runs, no hole link is appended
(the budget branch terminates instead because step 0 is the last step),
one tip with index 0 is recorded although the link table is empty, and
the `step > 0` assertion is violated — the degenerate configuration the
code comment on lines 330-333 warns about. -/
theorem C5_step0_degenerate_run :
    (runSingleSeedStep0NoMeas ⟨1, 0, 1, 2, 10⟩ 7).num_meas = 0 ∧
    (runSingleSeedStep0NoMeas ⟨1, 0, 1, 2, 10⟩ 7).enqueued = [] ∧
    (runSingleSeedStep0NoMeas ⟨1, 0, 1, 2, 10⟩ 7).shared_num = 0 ∧
    (runSingleSeedStep0NoMeas ⟨1, 0, 1, 2, 10⟩ 7).holeRan = true ∧
    (runSingleSeedStep0NoMeas ⟨1, 0, 1, 2, 10⟩ 7).result =
      ⟨[], [0], 1, false⟩ := by
  refine ⟨rfl, rfl, rfl, rfl, rfl⟩

lemma countP_congr_mem {p q : Nat → Bool} {l : List Nat}
    (h : ∀ a ∈ l, p a = q a) : l.countP p = l.countP q := by
  rw [List.countP_eq_length_filter, List.countP_eq_length_filter, List.filter_congr h]

/-- In a `≤`-sorted list, a downward-closed predicate holds at position
`j` exactly when `j` lies below the number of positions satisfying it. -/
lemma sorted_get_iff_lt_countP (p : Nat → Bool)
    (hp : ∀ a b : Nat, a ≤ b → p b = true → p a = true) :
    ∀ (ms : List Nat), List.Sorted (· ≤ ·) ms →
      ∀ (j : Nat) (hj : j < ms.length), (p (ms.get ⟨j, hj⟩) = true ↔ j < ms.countP p)
  | [], _, j, hj => absurd hj (by simp)
  | x :: t, hs, j, hj => by
    obtain ⟨hx, ht⟩ := List.sorted_cons.mp hs
    cases j with
    | zero =>
      rw [List.countP_cons]
      show p x = true ↔ 0 < t.countP p + if p x = true then 1 else 0
      by_cases hpx : p x = true
      · simp [hpx]
      · have hzero : t.countP p = 0 :=
          List.countP_eq_zero.mpr (fun y hy hpy => hpx (hp x y (hx y hy) hpy))
        simp [hpx, hzero]
    | succ j' =>
      have hj' : j' < t.length := by simpa using hj
      rw [List.get_cons_succ, List.countP_cons,
        sorted_get_iff_lt_countP p hp t ht j' hj']
      by_cases hpx : p x = true
      · simp only [hpx, if_true]
        omega
      · have hzero : t.countP p = 0 :=
          List.countP_eq_zero.mpr (fun y hy hpy => hpx (hp x y (hx y hy) hpy))
        rw [if_neg hpx, hzero]
        omega

/-- C7 counterexample: measurements `[5, 5]` (surface ids, sorted), one
barcode `5` with cumulative upper bound `2` — a well-formed per-surface
offset table.  A live slot on surface `3`, which has *no* measurements,
does not get an empty range: the lower bound lands on barcode `5` and the
slot receives that barcode's full range `(0, 2)`, refuting the claim
that a slot whose surface has no measurements gets zero measurements to
enqueue (and the range consists of measurements of surface `5 ≠ 3`). -/
theorem C7_counterexample :
    List.Sorted (· ≤ ·) [5, 5] ∧ List.Sorted (· < ·) ([5] : List Nat) ∧
    (∀ s ∈ [5, 5], s ∈ ([5] : List Nat)) ∧
    (∀ i (hi : i < ([5] : List Nat).length),
      ([2] : List Nat).getD i 0 =
        List.countP (fun s => decide (s ≤ ([5] : List Nat).get ⟨i, hi⟩)) [5, 5]) ∧
    (3 : Nat) ∉ [5, 5] ∧
    findMeasRange [5] [2] 3 = (0, 2) := by
  refine ⟨by decide, by decide, by decide, by decide, by decide, by decide⟩

/-- C7 (amended): step 1's binary-search range is exact *when the slot's
surface id is present in the barcode table*: under the preconditions of
the kernel — measurements sorted by surface id, strictly sorted barcode
list covering every measurement's surface, cumulative per-surface upper
bounds — the computed range `[init_meas, init_meas + num_meas)` contains
exactly the measurement indices whose surface id equals the slot's.  (A
slot whose surface is absent from the table instead inherits the range of
the next larger barcode, which is empty only when no larger barcode
exists — see the counterexample.) -/
theorem C7_range_exact_when_present
    (ms barcodes ub : List Nat) (bcd : Nat)
    (hms : List.Sorted (· ≤ ·) ms) (hbar : List.Sorted (· < ·) barcodes)
    (hub : ∀ i (hi : i < barcodes.length),
      ub.getD i 0 = ms.countP (fun s => decide (s ≤ barcodes.get ⟨i, hi⟩)))
    (hmem : ∀ s ∈ ms, s ∈ barcodes) (hbcd : bcd ∈ barcodes) :
    ∀ j (hj : j < ms.length),
      ((findMeasRange barcodes ub bcd).1 ≤ j ∧
        j < (findMeasRange barcodes ub bcd).1 + (findMeasRange barcodes ub bcd).2) ↔
      ms.get ⟨j, hj⟩ = bcd := by
  have hi : lowerBoundIdx barcodes bcd < barcodes.length :=
    List.findIdx_lt_length_of_exists ⟨bcd, hbcd, by simp⟩
  set i := lowerBoundIdx barcodes bcd with hidef
  have hmono_b : ∀ (a b : Nat) (ha : a < barcodes.length) (hb : b < barcodes.length),
      a ≤ b → barcodes[a] ≤ barcodes[b] := by
    intro a b ha hb hab
    rcases Nat.lt_or_eq_of_le hab with h | h
    · have := hbar.rel_get_of_lt (a := ⟨a, ha⟩) (b := ⟨b, hb⟩) (Fin.mk_lt_mk.mpr h)
      simp only [List.get_eq_getElem] at this
      exact Nat.le_of_lt this
    · subst h; exact Nat.le_refl _
  have hgei : bcd ≤ barcodes[i] := by
    have := @List.findIdx_getElem _ (fun b => decide (bcd ≤ b)) barcodes hi
    simpa using this
  have hklt : ∀ k (hk : k < barcodes.length), k < i → barcodes[k] < bcd := by
    intro k hk hki
    have := @List.not_of_lt_findIdx _ (fun b => decide (bcd ≤ b)) barcodes k hki
    simp only [decide_eq_false_iff_not, Nat.not_le] at this
    exact this
  have heq : barcodes[i] = bcd := by
    obtain ⟨k0, hk0, hbk0⟩ := List.mem_iff_getElem.mp hbcd
    rcases lt_trichotomy i k0 with h | h | h
    · have h1 : barcodes[i] ≤ barcodes[k0] := hmono_b i k0 hi hk0 (Nat.le_of_lt h)
      omega
    · subst h; exact hbk0
    · have := hklt k0 hk0 h
      omega
  have hne : ¬ (i = barcodes.length) := Nat.ne_of_lt hi
  have hfmr : findMeasRange barcodes ub bcd =
      ((if i = 0 then 0 else ub.getD (i - 1) 0),
        ub.getD i 0 - (if i = 0 then 0 else ub.getD (i - 1) 0)) := by
    unfold findMeasRange
    rw [← hidef]
    simp [hne]
  have hinit : (if i = 0 then 0 else ub.getD (i - 1) 0) =
      ms.countP (fun s => decide (s < bcd)) := by
    by_cases h0 : i = 0
    · rw [if_pos h0]
      symm
      apply List.countP_eq_zero.mpr
      intro s hs
      simp only [decide_eq_true_eq, Nat.not_lt]
      obtain ⟨k, hk, hbk⟩ := List.mem_iff_getElem.mp (hmem s hs)
      have : barcodes[i] ≤ barcodes[k] := hmono_b i k hi hk (by omega)
      omega
    · have h0' : i - 1 < barcodes.length := by omega
      rw [if_neg h0, hub (i - 1) h0']
      apply countP_congr_mem
      intro a ha
      simp only [List.get_eq_getElem, decide_eq_decide]
      have hadj : barcodes[i - 1] < barcodes[i] := by
        have := hbar.rel_get_of_lt (a := ⟨i - 1, h0'⟩) (b := ⟨i, hi⟩)
          (Fin.mk_lt_mk.mpr (by omega))
        simpa only [List.get_eq_getElem] using this
      constructor
      · intro hle
        omega
      · intro hlt'
        obtain ⟨k, hk, hbk⟩ := List.mem_iff_getElem.mp (hmem a ha)
        have hki : k < i := by
          by_contra hge
          have : barcodes[i] ≤ barcodes[k] := hmono_b i k hi hk (by omega)
          omega
        have : barcodes[k] ≤ barcodes[i - 1] := hmono_b k (i - 1) hk h0' (by omega)
        omega
  have hle_i : ub.getD i 0 = ms.countP (fun s => decide (s ≤ bcd)) := by
    rw [hub i hi]
    apply countP_congr_mem
    intro a ha
    simp only [List.get_eq_getElem, heq]
  have hmono_cnt : ms.countP (fun s => decide (s < bcd)) ≤
      ms.countP (fun s => decide (s ≤ bcd)) := by
    apply List.countP_mono_left
    intro x _ hx
    simp only [decide_eq_true_eq] at hx ⊢
    omega
  intro j hj
  rw [hfmr, hinit]
  simp only [hle_i]
  have h1 := sorted_get_iff_lt_countP (fun s => decide (s < bcd))
    (fun a b hab hpb => by simp only [decide_eq_true_eq] at hpb ⊢; omega) ms hms j hj
  have h2 := sorted_get_iff_lt_countP (fun s => decide (s ≤ bcd))
    (fun a b hab hpb => by simp only [decide_eq_true_eq] at hpb ⊢; omega) ms hms j hj
  simp only [decide_eq_true_eq] at h1 h2
  constructor
  · rintro ⟨hA, hB⟩
    have hBle : j < ms.countP (fun s => decide (s ≤ bcd)) := by omega
    have hvle : ms.get ⟨j, hj⟩ ≤ bcd := h2.mpr hBle
    have hvnlt : ¬ ms.get ⟨j, hj⟩ < bcd := fun hc => by
      have := h1.mp hc
      omega
    omega
  · intro hE
    have hvle : j < ms.countP (fun s => decide (s ≤ bcd)) := h2.mp (by omega)
    have hnlt : ¬ j < ms.countP (fun s => decide (s < bcd)) := fun hc => by
      have := h1.mpr hc
      omega
    omega

/-- Witness for C7 (amended) at a concrete input: measurements with
surface ids `[4, 5, 5, 7]`, barcodes `[4, 5, 7]`, cumulative upper bounds
`[1, 3, 4]`, and a slot on surface `5` — the range is `(1, 2)`, positions
1 and 2, exactly the measurements of surface `5`. -/
theorem C7_range_exact_when_present_witness :
    (List.Sorted (· ≤ ·) [4, 5, 5, 7] ∧ List.Sorted (· < ·) [4, 5, 7] ∧
      (∀ i (hi : i < ([4, 5, 7] : List Nat).length),
        ([1, 3, 4] : List Nat).getD i 0 =
          List.countP (fun s => decide (s ≤ ([4, 5, 7] : List Nat).get ⟨i, hi⟩))
            [4, 5, 5, 7]) ∧
      (∀ s ∈ [4, 5, 5, 7], s ∈ ([4, 5, 7] : List Nat)) ∧ (5 : Nat) ∈ [4, 5, 7]) ∧
    (∀ j (hj : j < ([4, 5, 5, 7] : List Nat).length),
      ((findMeasRange [4, 5, 7] [1, 3, 4] 5).1 ≤ j ∧
        j < (findMeasRange [4, 5, 7] [1, 3, 4] 5).1 +
          (findMeasRange [4, 5, 7] [1, 3, 4] 5).2) ↔
      ([4, 5, 5, 7] : List Nat).get ⟨j, hj⟩ = 5) :=
  ⟨⟨by decide, by decide, by decide, by decide, by decide⟩,
    C7_range_exact_when_present [4, 5, 5, 7] [4, 5, 7] [1, 3, 4] 5
      (by decide) (by decide) (by decide) (by decide) (by decide)⟩

/-!
## The track assembler

`build_tracks` (build_tracks.ipp): for one tip, reserve
`step + 1 - n_skipped` output slots, then fill them back-to-front by
walking the `previous_candidate_idx` chain, skipping hole links, and
finally record the summary statistics from the root-most emitted link.
-/

/-- The assembler's hole test (build_tracks.ipp line 59): a link is a
hole iff `meas_idx` is not a valid measurement index
(`L.meas_idx >= n_meas`). -/
def isHole (nmeas : Nat) (L : CandidateLink) : Bool := decide (nmeas ≤ L.meas_idx)

/-- The chain of link-table indices from a link back to its step-0 root,
following `previous_candidate_idx`.  `fuel` bounds the number of parent
hops; any fuel at or above the link's `step` is enough on a well-formed
table. -/
def chainIdx (links : List CandidateLink) : Nat → Nat → List Nat
  | 0, i => [i]
  | fuel + 1, i =>
    if (links.getD i dlink).step = 0 then [i]
    else i :: chainIdx links fuel (links.getD i dlink).previous_candidate_idx

/-- The canonical parent chain of a link (fuel = its own `step`). -/
def chainOf (links : List CandidateLink) (i : Nat) : List Nat :=
  chainIdx links (links.getD i dlink).step i

/-- The predicate selecting the emitted (non-hole) links. -/
def nhPred (links : List CandidateLink) (nmeas : Nat) : Nat → Bool :=
  fun k => ! isHole nmeas (links.getD k dlink)

/-- The non-hole (emitted) sublist of a parent chain, tip side first. -/
def nonHoleChain (links : List CandidateLink) (nmeas : Nat) (i : Nat) : List Nat :=
  (chainOf links i).filter (nhPred links nmeas)

/-- The hole-skipping loop of the assembler (build_tracks.ipp lines
59-62): follow parents while the current link is a hole away from
step 0. -/
def skipHoles (links : List CandidateLink) (nmeas : Nat) : Nat → Nat → Nat
  | 0, i => i
  | fuel + 1, i =>
    if isHole nmeas (links.getD i dlink) = true ∧ (links.getD i dlink).step ≠ 0 then
      skipHoles links nmeas fuel (links.getD i dlink).previous_candidate_idx
    else i

/-- Accumulator of the assembler's reverse-fill loop: emitted measurement
indices in walk order (tip side first), the two running sums, and the
link current at the last filled slot (the root-most emitted link), whose
fields seed the track summary. -/
structure WalkAcc where
  emitted : List Nat
  ndf_sum : ℚ
  chi2_sum : ℚ
  root : CandidateLink
deriving DecidableEq

/-- The reverse-iteration fill loop of `build_tracks` (lines 56-87),
demand-driven: `d` output slots remain, `i` is the current link index,
`dims` the `meas_dim` value of each measurement and `F` the hole-skip
fuel. -/
def buildWalk (links : List CandidateLink) (dims : List Nat) (F : Nat) :
    Nat → Nat → WalkAcc
  | 0, _ => ⟨[], 0, 0, dlink⟩
  | d + 1, i =>
    let j := skipHoles links dims.length F i
    let L := links.getD j dlink
    if d = 0 then ⟨[L.meas_idx], (dims.getD L.meas_idx 0 : ℚ), L.chi2, L⟩
    else
      let rest := buildWalk links dims F d L.previous_candidate_idx
      ⟨L.meas_idx :: rest.emitted, (dims.getD L.meas_idx 0 : ℚ) + rest.ndf_sum,
        L.chi2 + rest.chi2_sum, rest.root⟩

/-- One reconstructed track as filled in by `build_tracks`. -/
structure TrackResult where
  cands : List Nat
  ndf : ℚ
  chi2 : ℚ
  pval : ℚ
  n_holes : Nat
  seed : Nat
deriving DecidableEq

/-- Model of `build_tracks` for one tip (build_tracks.ipp lines 35-87).  `prob` is
the external chi-square survival function of `traccc/utils/prob.hpp`,
passed in opaquely; `dims` lists each measurement's `meas_dim`. -/
def buildTracks (prob : ℚ → ℚ → ℚ) (links : List CandidateLink) (dims : List Nat)
    (tip : Nat) : TrackResult :=
  let L := links.getD tip dlink
  let n_cands := L.step + 1 - L.n_skipped
  let w := buildWalk links dims (L.step + 1) n_cands tip
  { cands := w.emitted.reverse
    ndf := w.ndf_sum - 5
    chi2 := w.chi2_sum
    pval := prob w.chi2_sum (w.ndf_sum - 5)
    n_holes := w.root.n_skipped
    seed := w.root.seed_idx }

/-- Local well-formedness of one link-table entry, as established by the
writes in `find_tracks`: a step-0 link's `n_skipped` is 1 on a hole and 0
otherwise; a deeper link points to an existing parent exactly one step
earlier and accumulates the parent's `n_skipped`. -/
def WfAt (links : List CandidateLink) (nmeas : Nat) (i : Nat) : Prop :=
  ((links.getD i dlink).step = 0 →
    (links.getD i dlink).n_skipped =
      (if isHole nmeas (links.getD i dlink) = true then 1 else 0)) ∧
  ((links.getD i dlink).step ≠ 0 →
    (links.getD i dlink).previous_candidate_idx < links.length ∧
    (links.getD (links.getD i dlink).previous_candidate_idx dlink).step + 1 =
      (links.getD i dlink).step ∧
    (links.getD i dlink).n_skipped =
      (links.getD (links.getD i dlink).previous_candidate_idx dlink).n_skipped +
        (if isHole nmeas (links.getD i dlink) = true then 1 else 0))

/-- Well-formedness of the link table (the invariant the step expander
and hole inserter maintain). -/
def WfLinks (links : List CandidateLink) (nmeas : Nat) : Prop :=
  ∀ i, i < links.length → WfAt links nmeas i

instance (links : List CandidateLink) (nmeas i : Nat) : Decidable (WfAt links nmeas i) := by
  unfold WfAt
  infer_instance

instance (links : List CandidateLink) (nmeas : Nat) : Decidable (WfLinks links nmeas) := by
  unfold WfLinks
  infer_instance

lemma chainIdx_of_step_zero (links : List CandidateLink) (i : Nat)
    (h : (links.getD i dlink).step = 0) : ∀ fuel, chainIdx links fuel i = [i]
  | 0 => rfl
  | fuel + 1 => by
    unfold chainIdx
    rw [if_pos h]

lemma chainIdx_cons (links : List CandidateLink) (fuel i : Nat)
    (h0 : ¬ (links.getD i dlink).step = 0) :
    chainIdx links (fuel + 1) i =
      i :: chainIdx links fuel (links.getD i dlink).previous_candidate_idx := by
  simp only [chainIdx]
  rw [if_neg h0]

lemma chainIdx_fuel_eq (links : List CandidateLink) (nmeas : Nat)
    (hwf : WfLinks links nmeas) :
    ∀ fuel fuel' i, i < links.length → (links.getD i dlink).step ≤ fuel →
      (links.getD i dlink).step ≤ fuel' →
      chainIdx links fuel i = chainIdx links fuel' i := by
  intro fuel
  induction fuel with
  | zero =>
    intro fuel' i hi hf hf'
    have h0 : (links.getD i dlink).step = 0 := Nat.le_zero.mp hf
    rw [chainIdx_of_step_zero links i h0 0, chainIdx_of_step_zero links i h0 fuel']
  | succ fuel ih =>
    intro fuel' i hi hf hf'
    by_cases h0 : (links.getD i dlink).step = 0
    · rw [chainIdx_of_step_zero links i h0, chainIdx_of_step_zero links i h0]
    · obtain ⟨hprev, hstep, _⟩ := (hwf i hi).2 h0
      cases fuel' with
      | zero => omega
      | succ fuel' =>
        rw [chainIdx_cons links fuel i h0, chainIdx_cons links fuel' i h0]
        congr 1
        exact ih fuel' (links.getD i dlink).previous_candidate_idx hprev
          (by omega) (by omega)

lemma chainOf_cons (links : List CandidateLink) (nmeas : Nat)
    (hwf : WfLinks links nmeas) (i : Nat) (hi : i < links.length)
    (h0 : ¬ (links.getD i dlink).step = 0) :
    chainOf links i =
      i :: chainOf links (links.getD i dlink).previous_candidate_idx := by
  obtain ⟨hprev, hstep, _⟩ := (hwf i hi).2 h0
  unfold chainOf
  have hf : (links.getD i dlink).step =
      (links.getD (links.getD i dlink).previous_candidate_idx dlink).step + 1 := hstep.symm
  rw [hf, chainIdx_cons links _ i h0]

lemma chainOf_of_step_zero (links : List CandidateLink) (i : Nat)
    (h : (links.getD i dlink).step = 0) : chainOf links i = [i] := by
  unfold chainOf
  exact chainIdx_of_step_zero links i h _

/-- Structure of the canonical parent chain on a well-formed table:
length `step + 1`, all entries valid indices with non-increasing steps,
no index visited twice, and as many hole entries as the link's
`n_skipped` records. -/
lemma chain_spec (links : List CandidateLink) (nmeas : Nat) (hwf : WfLinks links nmeas) :
    ∀ fuel i, i < links.length → (links.getD i dlink).step ≤ fuel →
      ((chainIdx links fuel i).length = (links.getD i dlink).step + 1 ∧
       (∀ j ∈ chainIdx links fuel i, j < links.length ∧
          (links.getD j dlink).step ≤ (links.getD i dlink).step) ∧
       (chainIdx links fuel i).Nodup ∧
       (chainIdx links fuel i).countP
          (fun k => isHole nmeas (links.getD k dlink)) =
            (links.getD i dlink).n_skipped) := by
  intro fuel
  induction fuel with
  | zero =>
    intro i hi hf
    have h0 : (links.getD i dlink).step = 0 := Nat.le_zero.mp hf
    rw [chainIdx_of_step_zero links i h0 0]
    refine ⟨by rw [h0]; rfl, ?_, by simp, ?_⟩
    · intro j hj
      have : j = i := by simpa using hj
      subst this
      exact ⟨hi, Nat.le_refl _⟩
    · rw [List.countP_cons, List.countP_nil]
      rw [(hwf i hi).1 h0]
      simp
  | succ fuel ih =>
    intro i hi hf
    by_cases h0 : (links.getD i dlink).step = 0
    · rw [chainIdx_of_step_zero links i h0 (fuel + 1)]
      refine ⟨by rw [h0]; rfl, ?_, by simp, ?_⟩
      · intro j hj
        have : j = i := by simpa using hj
        subst this
        exact ⟨hi, Nat.le_refl _⟩
      · rw [List.countP_cons, List.countP_nil]
        rw [(hwf i hi).1 h0]
        simp
    · obtain ⟨hprev, hstep, hskip⟩ := (hwf i hi).2 h0
      have hfp : (links.getD (links.getD i dlink).previous_candidate_idx dlink).step ≤
          fuel := by omega
      obtain ⟨ihlen, ihmem, ihnd, ihcnt⟩ :=
        ih (links.getD i dlink).previous_candidate_idx hprev hfp
      rw [chainIdx_cons links fuel i h0]
      refine ⟨?_, ?_, ?_, ?_⟩
      · simp only [List.length_cons, ihlen]
        omega
      · intro j hj
        rcases List.mem_cons.mp hj with h | h
        · subst h
          exact ⟨hi, Nat.le_refl _⟩
        · obtain ⟨hjl, hjs⟩ := ihmem j h
          exact ⟨hjl, by omega⟩
      · refine List.nodup_cons.mpr ⟨?_, ihnd⟩
        intro hmem2
        obtain ⟨_, hjs⟩ := ihmem i hmem2
        omega
      · rw [List.countP_cons, ihcnt, hskip]

lemma getLastD_of_ne_nil {l : List Nat} (h : l ≠ []) (a b : Nat) :
    l.getLastD a = l.getLastD b := by
  rw [List.getLastD_eq_getLast?, List.getLastD_eq_getLast?, List.getLast?_eq_getLast l h]
  rfl

/-- The hole-skip loop lands on a valid index at no deeper step, does not
change the emitted (non-hole) part of the chain, and stops only at a
non-hole link or at a step-0 link. -/
lemma skipHoles_spec (links : List CandidateLink) (nmeas : Nat)
    (hwf : WfLinks links nmeas) :
    ∀ fuel i, i < links.length → (links.getD i dlink).step ≤ fuel →
      (skipHoles links nmeas fuel i < links.length ∧
       (links.getD (skipHoles links nmeas fuel i) dlink).step ≤
          (links.getD i dlink).step ∧
       nonHoleChain links nmeas (skipHoles links nmeas fuel i) =
          nonHoleChain links nmeas i ∧
       (isHole nmeas (links.getD (skipHoles links nmeas fuel i) dlink) = true →
         (links.getD (skipHoles links nmeas fuel i) dlink).step = 0)) := by
  intro fuel
  induction fuel with
  | zero =>
    intro i hi hf
    have h0 : (links.getD i dlink).step = 0 := Nat.le_zero.mp hf
    exact ⟨hi, Nat.le_refl _, rfl, fun _ => h0⟩
  | succ fuel ih =>
    intro i hi hf
    by_cases hcond : isHole nmeas (links.getD i dlink) = true ∧
        (links.getD i dlink).step ≠ 0
    · have hrec : skipHoles links nmeas (fuel + 1) i =
          skipHoles links nmeas fuel (links.getD i dlink).previous_candidate_idx := by
        simp only [skipHoles]
        rw [if_pos hcond]
      obtain ⟨hprev, hstep, _⟩ := (hwf i hi).2 hcond.2
      have hfp : (links.getD (links.getD i dlink).previous_candidate_idx dlink).step ≤
          fuel := by omega
      obtain ⟨a, b, c, d⟩ := ih (links.getD i dlink).previous_candidate_idx hprev hfp
      rw [hrec]
      refine ⟨a, by omega, ?_, d⟩
      rw [c]
      unfold nonHoleChain
      have hnotp : ¬ nhPred links nmeas i = true := by
        show ¬ (! isHole nmeas (links.getD i dlink)) = true
        rw [hcond.1]
        exact Bool.false_ne_true
      rw [chainOf_cons links nmeas hwf i hi hcond.2, List.filter_cons_of_neg hnotp]
    · have hstop : skipHoles links nmeas (fuel + 1) i = i := by
        simp only [skipHoles]
        rw [if_neg hcond]
      rw [hstop]
      refine ⟨hi, Nat.le_refl _, rfl, ?_⟩
      intro hh
      by_contra hs
      exact hcond ⟨hh, hs⟩

/-- Correctness of the assembler's fill loop: when the demand equals the
number of non-hole links on the chain (and is positive), the loop emits
exactly the non-hole chain's measurements in walk order, sums their
`meas_dim` values and `chi2` costs, and ends holding the root-most
emitted link. -/
lemma buildWalk_spec (links : List CandidateLink) (dims : List Nat) (F : Nat)
    (hwf : WfLinks links dims.length) :
    ∀ d i, i < links.length → (links.getD i dlink).step ≤ F → d ≠ 0 →
      d = (nonHoleChain links dims.length i).length →
      buildWalk links dims F d i =
        ⟨(nonHoleChain links dims.length i).map (fun k => (links.getD k dlink).meas_idx),
         ((nonHoleChain links dims.length i).map
            (fun k => (dims.getD (links.getD k dlink).meas_idx 0 : ℚ))).sum,
         ((nonHoleChain links dims.length i).map (fun k => (links.getD k dlink).chi2)).sum,
         links.getD ((nonHoleChain links dims.length i).getLastD 0) dlink⟩ := by
  intro d
  induction d with
  | zero =>
    intro i _ _ hd _
    exact absurd rfl hd
  | succ d ih =>
    intro i hi hF hd hlen
    obtain ⟨hj, hjs, hchain, hstop⟩ := skipHoles_spec links dims.length hwf F i hi hF
    set j := skipHoles links dims.length F i with hjdef
    have hnh : nhPred links dims.length j = true := by
      by_contra hb
      have hb' : isHole dims.length (links.getD j dlink) = true := by
        have hb2 : ¬ (! isHole dims.length (links.getD j dlink)) = true := hb
        revert hb2
        cases isHole dims.length (links.getD j dlink) <;> simp
      have h0 := hstop hb'
      have hempty : nonHoleChain links dims.length j = [] := by
        unfold nonHoleChain
        rw [chainOf_of_step_zero links j h0, List.filter_cons_of_neg hb]
        rfl
      rw [← hchain, hempty] at hlen
      simp at hlen
    have hwalk : buildWalk links dims F (d + 1) i =
        (if d = 0 then
          ⟨[(links.getD j dlink).meas_idx],
            (dims.getD (links.getD j dlink).meas_idx 0 : ℚ),
            (links.getD j dlink).chi2, links.getD j dlink⟩
        else
          ⟨(links.getD j dlink).meas_idx
              :: (buildWalk links dims F d
                (links.getD j dlink).previous_candidate_idx).emitted,
            (dims.getD (links.getD j dlink).meas_idx 0 : ℚ) +
              (buildWalk links dims F d
                (links.getD j dlink).previous_candidate_idx).ndf_sum,
            (links.getD j dlink).chi2 +
              (buildWalk links dims F d
                (links.getD j dlink).previous_candidate_idx).chi2_sum,
            (buildWalk links dims F d
              (links.getD j dlink).previous_candidate_idx).root⟩ : WalkAcc) := by
      simp only [buildWalk]
    by_cases hd0 : d = 0
    · subst hd0
      have hone : nonHoleChain links dims.length i = [j] := by
        rw [← hchain]
        by_cases h0 : (links.getD j dlink).step = 0
        · unfold nonHoleChain
          rw [chainOf_of_step_zero links j h0, List.filter_cons_of_pos hnh]
          rfl
        · have hcons : nonHoleChain links dims.length j =
              j :: nonHoleChain links dims.length
                (links.getD j dlink).previous_candidate_idx := by
            unfold nonHoleChain
            rw [chainOf_cons links dims.length hwf j hj h0,
              List.filter_cons_of_pos hnh]
          rw [← hchain] at hlen
          rw [hcons] at hlen ⊢
          have : nonHoleChain links dims.length
              (links.getD j dlink).previous_candidate_idx = [] := by
            have := hlen
            simp only [List.length_cons] at this
            exact List.length_eq_zero.mp (by omega)
          rw [this]
      rw [hwalk, if_pos rfl, hone]
      simp
    · have h0 : ¬ (links.getD j dlink).step = 0 := by
        intro h0
        have hone : nonHoleChain links dims.length j = [j] := by
          unfold nonHoleChain
          rw [chainOf_of_step_zero links j h0, List.filter_cons_of_pos hnh]
          rfl
        rw [← hchain, hone] at hlen
        simp only [List.length_cons, List.length_nil] at hlen
        omega
      obtain ⟨hprevj, hstepj, _⟩ := (hwf j hj).2 h0
      have hcons : nonHoleChain links dims.length i =
          j :: nonHoleChain links dims.length
            (links.getD j dlink).previous_candidate_idx := by
        rw [← hchain]
        unfold nonHoleChain
        rw [chainOf_cons links dims.length hwf j hj h0, List.filter_cons_of_pos hnh]
      have hlen' : d = (nonHoleChain links dims.length
          (links.getD j dlink).previous_candidate_idx).length := by
        rw [hcons] at hlen
        simp only [List.length_cons] at hlen
        omega
      have hFp : (links.getD (links.getD j dlink).previous_candidate_idx dlink).step ≤
          F := by omega
      have hne2 : nonHoleChain links dims.length
          (links.getD j dlink).previous_candidate_idx ≠ [] := by
        intro hnil
        rw [hnil] at hlen'
        simp only [List.length_nil] at hlen'
        exact hd0 hlen'
      rw [hwalk, if_neg hd0, ih _ hprevj hFp hd0 hlen', hcons]
      simp only [List.map_cons, List.sum_cons, List.getLastD_cons]
      rw [getLastD_of_ne_nil hne2 j 0]

lemma nhPred_countP_add (links : List CandidateLink) (nmeas : Nat) (l : List Nat) :
    l.countP (nhPred links nmeas) +
        l.countP (fun k => isHole nmeas (links.getD k dlink)) = l.length := by
  induction l with
  | nil => rfl
  | cons x t ih =>
    rw [List.countP_cons, List.countP_cons]
    have hx : nhPred links nmeas x = ! isHole nmeas (links.getD x dlink) := rfl
    rw [hx]
    cases h : isHole nmeas (links.getD x dlink)
    · rw [if_pos (show (!false) = true from rfl),
        if_neg (show ¬ false = true from Bool.false_ne_true)]
      simp only [List.length_cons]
      omega
    · rw [if_neg (show ¬ (!true) = true from Bool.false_ne_true),
        if_pos (show true = true from rfl)]
      simp only [List.length_cons]
      omega

/-- The number of emitted links on a chain is `step + 1 - n_skipped`. -/
lemma nonHoleChain_length (links : List CandidateLink) (nmeas : Nat)
    (hwf : WfLinks links nmeas) (i : Nat) (hi : i < links.length) :
    (nonHoleChain links nmeas i).length =
      (links.getD i dlink).step + 1 - (links.getD i dlink).n_skipped := by
  obtain ⟨hlen, _, _, hcnt⟩ :=
    chain_spec links nmeas hwf (links.getD i dlink).step i hi (Nat.le_refl _)
  have hadd := nhPred_countP_add links nmeas (chainOf links i)
  have hlen' : (chainOf links i).length = (links.getD i dlink).step + 1 := hlen
  have hcnt' : (chainOf links i).countP
      (fun k => isHole nmeas (links.getD k dlink)) = (links.getD i dlink).n_skipped := hcnt
  unfold nonHoleChain
  rw [← List.countP_eq_length_filter]
  omega

/-- C3: For every tip on a well-formed link table, the assembler's
backward walk is acyclic (the parent chain, which contains every index
the walk reads, has no duplicate), the emitted sequence is exactly the
non-hole links' measurements oldest-first (holes are skipped), and its
length is exactly `step + 1 - n_skipped` of the tip link — the reserved
output size. -/
theorem C3_backtrace_exact (prob : ℚ → ℚ → ℚ) (links : List CandidateLink)
    (dims : List Nat) (tip : Nat)
    (hwf : WfLinks links dims.length) (htip : tip < links.length) :
    (chainOf links tip).Nodup ∧
    (buildTracks prob links dims tip).cands =
      ((nonHoleChain links dims.length tip).map
        (fun k => (links.getD k dlink).meas_idx)).reverse ∧
    (buildTracks prob links dims tip).cands.length =
      (links.getD tip dlink).step + 1 - (links.getD tip dlink).n_skipped := by
  obtain ⟨_, _, hnd, _⟩ :=
    chain_spec links dims.length hwf (links.getD tip dlink).step tip htip (Nat.le_refl _)
  have hnhlen := nonHoleChain_length links dims.length hwf tip htip
  have hcands : (buildTracks prob links dims tip).cands =
      ((nonHoleChain links dims.length tip).map
        (fun k => (links.getD k dlink).meas_idx)).reverse := by
    by_cases hz : (links.getD tip dlink).step + 1 - (links.getD tip dlink).n_skipped = 0
    · have hempty : nonHoleChain links dims.length tip = [] :=
        List.length_eq_zero.mp (by omega)
      show (buildWalk links dims ((links.getD tip dlink).step + 1)
          ((links.getD tip dlink).step + 1 - (links.getD tip dlink).n_skipped)
          tip).emitted.reverse = _
      rw [hz, hempty]
      rfl
    · have hspec := buildWalk_spec links dims ((links.getD tip dlink).step + 1) hwf
        ((links.getD tip dlink).step + 1 - (links.getD tip dlink).n_skipped) tip htip
        (by omega) hz hnhlen.symm
      show (buildWalk links dims ((links.getD tip dlink).step + 1)
          ((links.getD tip dlink).step + 1 - (links.getD tip dlink).n_skipped)
          tip).emitted.reverse = _
      rw [hspec]
  refine ⟨hnd, hcands, ?_⟩
  rw [hcands]
  simp only [List.length_reverse, List.length_map]
  exact hnhlen

/-- C8: For every assembled track on a well-formed link table (with a
tip whose chain has at least one emitted link, i.e. `n_skipped ≤ step`),
the degrees of freedom are the sum of the emitted measurements'
dimensionalities minus 5 (subtracted once at the end), the total
chi-square is the sum of `chi2` over the non-hole links of the chain,
the p-value is `prob` applied to that chi-square and those degrees of
freedom, and the recorded hole count is the `n_skipped` of the root-most
emitted link. -/
theorem C8_track_summary (prob : ℚ → ℚ → ℚ) (links : List CandidateLink)
    (dims : List Nat) (tip : Nat)
    (hwf : WfLinks links dims.length) (htip : tip < links.length)
    (hpos : (links.getD tip dlink).n_skipped ≤ (links.getD tip dlink).step) :
    (buildTracks prob links dims tip).ndf =
      ((buildTracks prob links dims tip).cands.map
        (fun m => (dims.getD m 0 : ℚ))).sum - 5 ∧
    (buildTracks prob links dims tip).chi2 =
      ((nonHoleChain links dims.length tip).map
        (fun k => (links.getD k dlink).chi2)).sum ∧
    (buildTracks prob links dims tip).pval =
      prob (buildTracks prob links dims tip).chi2 (buildTracks prob links dims tip).ndf ∧
    (buildTracks prob links dims tip).n_holes =
      (links.getD ((nonHoleChain links dims.length tip).getLastD 0) dlink).n_skipped := by
  have hnhlen := nonHoleChain_length links dims.length hwf tip htip
  have hz : (links.getD tip dlink).step + 1 - (links.getD tip dlink).n_skipped ≠ 0 := by
    omega
  have hspec := buildWalk_spec links dims ((links.getD tip dlink).step + 1) hwf
    ((links.getD tip dlink).step + 1 - (links.getD tip dlink).n_skipped) tip htip
    (by omega) hz hnhlen.symm
  refine ⟨?_, ?_, rfl, ?_⟩
  · show (buildWalk links dims ((links.getD tip dlink).step + 1)
        ((links.getD tip dlink).step + 1 - (links.getD tip dlink).n_skipped)
        tip).ndf_sum - 5 =
      ((buildWalk links dims ((links.getD tip dlink).step + 1)
        ((links.getD tip dlink).step + 1 - (links.getD tip dlink).n_skipped)
        tip).emitted.reverse.map (fun m => (dims.getD m 0 : ℚ))).sum - 5
    rw [hspec]
    simp only [List.map_reverse, List.sum_reverse, List.map_map]
    rfl
  · show (buildWalk links dims ((links.getD tip dlink).step + 1)
        ((links.getD tip dlink).step + 1 - (links.getD tip dlink).n_skipped)
        tip).chi2_sum = _
    rw [hspec]
  · show (buildWalk links dims ((links.getD tip dlink).step + 1)
        ((links.getD tip dlink).step + 1 - (links.getD tip dlink).n_skipped)
        tip).root.n_skipped = _
    rw [hspec]

/-- A small concrete link table: a step-0 measurement link, a step-1
hole link, and a step-2 measurement link forming one chain. -/
def demoLinks : List CandidateLink :=
  [⟨0, 0, 0, 0, 0, 1⟩,
   ⟨1, 0, holeMeasIdx, 0, 1, scalarMax⟩,
   ⟨2, 1, 1, 0, 1, 2⟩]

/-- Dimensionalities of the two measurements of the demo table. -/
def demoDims : List Nat := [2, 2]

/-- Witness for C3 at the demo table: tip 2 has `step 2`, `n_skipped 1`,
so the assembled track holds the two measurements `[0, 1]` oldest
first. -/
theorem C3_backtrace_exact_witness :
    (WfLinks demoLinks demoDims.length ∧ 2 < demoLinks.length) ∧
    ((chainOf demoLinks 2).Nodup ∧
      (buildTracks (fun a b => a + b) demoLinks demoDims 2).cands =
        ((nonHoleChain demoLinks demoDims.length 2).map
          (fun k => (demoLinks.getD k dlink).meas_idx)).reverse ∧
      (buildTracks (fun a b => a + b) demoLinks demoDims 2).cands.length =
        (demoLinks.getD 2 dlink).step + 1 - (demoLinks.getD 2 dlink).n_skipped) :=
  ⟨⟨by decide, by decide⟩,
    C3_backtrace_exact (fun a b => a + b) demoLinks demoDims 2 (by decide) (by decide)⟩

/-- Witness for C8 at the demo table: tip 2 satisfies
`n_skipped = 1 ≤ 2 = step`. -/
theorem C8_track_summary_witness :
    (WfLinks demoLinks demoDims.length ∧ 2 < demoLinks.length ∧
      (demoLinks.getD 2 dlink).n_skipped ≤ (demoLinks.getD 2 dlink).step) ∧
    ((buildTracks (fun a b => a * b) demoLinks demoDims 2).ndf =
      ((buildTracks (fun a b => a * b) demoLinks demoDims 2).cands.map
        (fun m => (demoDims.getD m 0 : ℚ))).sum - 5 ∧
    (buildTracks (fun a b => a * b) demoLinks demoDims 2).chi2 =
      ((nonHoleChain demoLinks demoDims.length 2).map
        (fun k => (demoLinks.getD k dlink).chi2)).sum ∧
    (buildTracks (fun a b => a * b) demoLinks demoDims 2).pval =
      (fun a b => a * b) (buildTracks (fun a b => a * b) demoLinks demoDims 2).chi2
        (buildTracks (fun a b => a * b) demoLinks demoDims 2).ndf ∧
    (buildTracks (fun a b => a * b) demoLinks demoDims 2).n_holes =
      (demoLinks.getD ((nonHoleChain demoLinks demoDims.length 2).getLastD 0)
        dlink).n_skipped) :=
  ⟨⟨by decide, by decide, by decide⟩,
    C8_track_summary (fun a b => a * b) demoLinks demoDims 2 (by decide) (by decide)
      (by decide)⟩
